import Mathlib

/-!
# Verification of the westwood C style linter against its specification

This file gives a shallow embedding, in Lean 4, of the parts of the
westwood linter (a C style checker driven by tree-sitter queries) that the
frozen claims are about, together with theorems settling each claim.

Conventions of the embedding:

* Rust `&str` values are modelled as `List Char`; byte indices computed by
  the Rust code (`str::len`, `str::find`, slice offsets) are modelled with
  `utf8Len`, the number of UTF-8 code units of a scalar value, so that the
  arithmetic of the source is reproduced exactly.
* External collaborators (the tree-sitter parser, the `unicode_width`
  crate) are opaque at the boundary, exactly as the spec declares them; a
  definition that stands in for one of them is marked `Modelled from the
  spec:` in its doc comment and is kept to the observable surface the core
  uses.
* Rust panics are modelled by `Option`, with `none` for a panic.
-/

/-- Number of bytes of the UTF-8 encoding of a character, as used by
`str::len()` and all byte-offset arithmetic in the Rust source. -/
def utf8Len (c : Char) : Nat :=
  if c.toNat < 0x80 then 1
  else if c.toNat < 0x800 then 2
  else if c.toNat < 0x10000 then 3
  else 4

/-- Byte length of a string modelled as a character list (`str::len()`). -/
def utf8Length (s : List Char) : Nat :=
  (s.map utf8Len).sum

/-- The Unicode `White_Space` property, which is what Rust's
`char::is_whitespace()` tests. The 25 code points are fixed by the Unicode
character database. -/
def isRustWhitespace (c : Char) : Bool :=
  c.toNat ∈ [0x09, 0x0A, 0x0B, 0x0C, 0x0D, 0x20, 0x85, 0xA0, 0x1680,
    0x2000, 0x2001, 0x2002, 0x2003, 0x2004, 0x2005, 0x2006, 0x2007,
    0x2008, 0x2009, 0x200A, 0x2028, 0x2029, 0x202F, 0x205F, 0x3000]

/-- `LinesWithPosition` (src/helpers/mod.rs): iterator over the lines of a
string, paired with the byte index of the start of each line. Each step
finds the first `'\n'` (or end of input), yields the text before it with
the current index, and advances past the newline when one was found. -/
def linesWithPosition (input : List Char) (index : Nat) :
    List (List Char × Nat) :=
  if h : input = [] then []
  else
    match hf : input.findIdx? (· = '\n') with
    | some eolIndex =>
      let line := input.take eolIndex
      (line, index) ::
        linesWithPosition (input.drop (eolIndex + 1))
          (index + utf8Length line + 1)
    | none => [(input, index)]
termination_by input.length
decreasing_by
  simp only [List.length_drop]
  have hlen : 0 < input.length := List.length_pos.mpr h
  omega

/-- The line table of `SourceInfo::new` (src/rules/api.rs): the collected
output of `LinesWithPosition` starting at byte 0. -/
def sourceLines (code : List Char) : List (List Char × Nat) :=
  linesWithPosition code 0

/-- If `find('\n')` succeeds at index `i`, the input decomposes as the
newline-free prefix of length `i`, the newline, and the remainder. -/
theorem findIdx_nl_decomp {input : List Char} {i : Nat}
    (h : input.findIdx? (· = '\n') = some i) :
    input.take i ++ '\n' :: input.drop (i + 1) = input ∧
      '\n' ∉ input.take i := by
  rw [List.findIdx?_eq_some_iff_getElem] at h
  obtain ⟨hi, hc, hprev⟩ := h
  have hc' : input[i] = '\n' := by simpa using hc
  constructor
  · have h2 := List.take_append_drop i input
    rw [List.drop_eq_getElem_cons hi, hc'] at h2
    exact h2
  · intro hmem
    obtain ⟨j, hj, hget⟩ := List.getElem_of_mem hmem
    have hjlt : j < i := by
      have := hj
      simp only [List.length_take] at this
      omega
    have hjlen : j < input.length := by
      have := hj
      simp only [List.length_take] at this
      omega
    have hval : input[j] = '\n' := by
      rw [← hget]
      exact (List.getElem_take input).symm
    exact hprev j hjlt (by simp [hval])

/-- `LinesWithPosition` yields no items exactly on empty input. -/
theorem linesWithPosition_eq_nil_iff (input : List Char) (idx : Nat) :
    linesWithPosition input idx = [] ↔ input = [] := by
  constructor
  · intro h
    by_contra hne
    rw [linesWithPosition] at h
    simp only [dif_neg hne] at h
    split at h <;> simp at h
  · intro h
    subst h
    rw [linesWithPosition]
    simp

/-- The first item produced by `LinesWithPosition` carries the starting
index. -/
theorem linesWithPosition_head_snd {input : List Char} (idx : Nat)
    (h : input ≠ []) :
    ∃ line, (linesWithPosition input idx).head? = some (line, idx) := by
  rw [linesWithPosition]
  simp only [dif_neg h]
  split
  · exact ⟨_, rfl⟩
  · exact ⟨input, rfl⟩

theorem intercalate_cons_of_ne_nil (sep a : List Char) {l : List (List Char)}
    (h : l ≠ []) :
    List.intercalate sep (a :: l) = a ++ sep ++ List.intercalate sep l := by
  obtain ⟨b, t, rfl⟩ := List.exists_cons_of_ne_nil h
  simp [List.intercalate, List.intersperse_cons_cons]

/-- Successive items of `LinesWithPosition` advance the start index by the
byte length of the yielded line plus one (for the `'\n'` separator). -/
theorem linesWithPosition_chain (input : List Char) (idx : Nat) :
    List.Chain' (fun p q : List Char × Nat => q.2 = p.2 + utf8Length p.1 + 1)
      (linesWithPosition input idx) := by
  induction input, idx using linesWithPosition.induct with
  | case1 idx => rw [linesWithPosition]; simp
  | case2 input idx hne eol hf line ih =>
    rw [linesWithPosition]
    simp only [dif_neg hne]
    split
    case _ eol' hf' =>
      have heq : eol = eol' := by
        have := hf.symm.trans hf'
        exact Option.some.inj this
      subst heq
      rw [List.chain'_cons']
      refine ⟨?_, ih⟩
      intro y hy
      by_cases hd : input.drop (eol + 1) = []
      · rw [hd, linesWithPosition] at hy
        simp at hy
      · obtain ⟨line', hline'⟩ := linesWithPosition_head_snd _ hd
        rw [hline'] at hy
        cases hy
        rfl
    case _ hf' =>
      rw [hf'] at hf
      cases hf
  | case3 input idx hne hf =>
    rw [linesWithPosition]
    simp only [dif_neg hne]
    split
    case _ eol' hf' =>
      rw [hf'] at hf
      cases hf
    case _ hf' => simp

/-- `LinesWithPosition` yields one item per line, whether or not the final
line is newline-terminated. -/
theorem linesWithPosition_length (input : List Char) (idx : Nat) :
    (linesWithPosition input idx).length =
      input.count '\n' +
        (if input ≠ [] ∧ input.getLast? ≠ some '\n' then 1 else 0) := by
  induction input, idx using linesWithPosition.induct with
  | case1 idx => rw [linesWithPosition]; simp
  | case2 input idx hne eol hf line ih =>
    obtain ⟨hsplit, hnotmem⟩ := findIdx_nl_decomp hf
    rw [linesWithPosition]
    simp only [dif_neg hne]
    split
    case _ eol' hf' =>
      have heq : eol = eol' := Option.some.inj (hf.symm.trans hf')
      subst heq
      have hcount : input.count '\n' = (input.drop (eol + 1)).count '\n' + 1 := by
        conv_lhs => rw [← hsplit]
        rw [List.count_append, List.count_cons]
        have h0 : (input.take eol).count '\n' = 0 :=
          List.count_eq_zero.mpr hnotmem
        simp [h0]
      by_cases hd : input.drop (eol + 1) = []
      · have hlast : input.getLast? = some '\n' := by
          conv_lhs => rw [← hsplit, hd]
          rw [List.getLast?_append]
          rfl
        rw [hd, linesWithPosition]
        simp [hlast, hcount, hd]
      · have hlast : input.getLast? = (input.drop (eol + 1)).getLast? := by
          conv_lhs => rw [← hsplit]
          rw [List.getLast?_append]
          obtain ⟨b, t, hbt⟩ := List.exists_cons_of_ne_nil hd
          rw [hbt, List.getLast?_cons_cons]
          cases h : (b :: t).getLast? with
          | none =>
            rw [List.getLast?_eq_getLast (b :: t) (by simp)] at h
            cases h
          | some c => simp [← hbt, h]
        simp only [List.length_cons, ih, hcount, hlast]
        by_cases hx : (input.drop (eol + 1)).getLast? = some '\n' <;>
          simp [hd, hne, hx] <;> omega
    case _ hf' =>
      rw [hf'] at hf
      cases hf
  | case3 input idx hne hf =>
    rw [linesWithPosition]
    simp only [dif_neg hne]
    split
    case _ eol' hf' =>
      rw [hf'] at hf
      cases hf
    case _ hf' =>
      rw [List.findIdx?_eq_none_iff] at hf
      have hnotmem : '\n' ∉ input := by
        intro hmem
        have := hf _ hmem
        simp at this
      have hcount : input.count '\n' = 0 := List.count_eq_zero.mpr hnotmem
      have hlast : input.getLast? ≠ some '\n' := by
        rw [List.getLast?_eq_getLast _ hne]
        intro hc
        exact hnotmem (Option.some.inj hc ▸ List.getLast_mem hne)
      simp [hcount, hne, hlast]

/-- Joining the lines of `LinesWithPosition` with `'\n'` separators (and the
trailing `'\n'` when the input ends with one) reproduces the input. -/
theorem linesWithPosition_reconstruct (input : List Char) (idx : Nat) :
    List.intercalate ['\n'] ((linesWithPosition input idx).map Prod.fst) ++
      (if input.getLast? = some '\n' then ['\n'] else []) = input := by
  induction input, idx using linesWithPosition.induct with
  | case1 idx => rw [linesWithPosition]; simp [List.intercalate]
  | case2 input idx hne eol hf line ih =>
    obtain ⟨hsplit, -⟩ := findIdx_nl_decomp hf
    rw [linesWithPosition]
    simp only [dif_neg hne]
    split
    case _ eol' hf' =>
      have heq : eol = eol' := Option.some.inj (hf.symm.trans hf')
      subst heq
      by_cases hd : input.drop (eol + 1) = []
      · have hlast : input.getLast? = some '\n' := by
          conv_lhs => rw [← hsplit, hd]
          rw [List.getLast?_append]
          rfl
        have hz : linesWithPosition ([] : List Char)
            (idx + utf8Length (input.take eol) + 1) = [] :=
          (linesWithPosition_eq_nil_iff _ _).mpr rfl
        rw [hd] at hsplit ⊢
        rw [hz]
        simpa [hlast, List.intercalate] using hsplit
      · have hlast : input.getLast? = (input.drop (eol + 1)).getLast? := by
          conv_lhs => rw [← hsplit]
          rw [List.getLast?_append]
          obtain ⟨b, t, hbt⟩ := List.exists_cons_of_ne_nil hd
          rw [hbt, List.getLast?_cons_cons]
          cases h : (b :: t).getLast? with
          | none =>
            rw [List.getLast?_eq_getLast (b :: t) (by simp)] at h
            cases h
          | some c => simp [← hbt, h]
        have hmapne :
            (linesWithPosition (input.drop (eol + 1))
              (idx + utf8Length (input.take eol) + 1)).map Prod.fst ≠ [] := by
          rw [ne_eq, List.map_eq_nil_iff, linesWithPosition_eq_nil_iff]
          exact hd
        rw [List.map_cons, intercalate_cons_of_ne_nil _ _ hmapne, hlast]
        rw [List.append_assoc, List.append_assoc]
        rw [ih]
        simpa using hsplit
    case _ hf' =>
      rw [hf'] at hf
      cases hf
  | case3 input idx hne hf =>
    rw [linesWithPosition]
    simp only [dif_neg hne]
    split
    case _ eol' hf' =>
      rw [hf'] at hf
      cases hf
    case _ hf' =>
      rw [List.findIdx?_eq_none_iff] at hf
      have hnotmem : '\n' ∉ input := by
        intro hmem
        have := hf _ hmem
        simp at this
      have hlast : input.getLast? ≠ some '\n' := by
        rw [List.getLast?_eq_getLast _ hne]
        intro hc
        exact hnotmem (Option.some.inj hc ▸ List.getLast_mem hne)
      simp [hlast, List.intercalate]

/-- C5: the line table built for `SourceInfo` by `LinesWithPosition` has
strictly increasing `line_start_byte` values, its first pair (for non-empty
text) starts at byte 0, it has one pair per line whether or not the final
line is newline-terminated, and joining the `line_text` values with their
`'\n'` separators reproduces the original text exactly. -/
theorem C5_sourceinfo_line_invariants (code : List Char) :
    List.Chain' (fun p q : List Char × Nat => p.2 < q.2) (sourceLines code) ∧
    (code ≠ [] → ∃ line, (sourceLines code).head? = some (line, 0)) ∧
    (sourceLines code).length =
      code.count '\n' +
        (if code ≠ [] ∧ code.getLast? ≠ some '\n' then 1 else 0) ∧
    List.intercalate ['\n'] ((sourceLines code).map Prod.fst) ++
      (if code.getLast? = some '\n' then ['\n'] else []) = code := by
  refine ⟨?_, ?_, linesWithPosition_length code 0,
    linesWithPosition_reconstruct code 0⟩
  · exact (linesWithPosition_chain code 0).imp (fun h => by omega)
  · intro h
    exact linesWithPosition_head_snd 0 h

/-- Witness for C5 at a concrete input. -/
theorem C5_sourceinfo_line_invariants_witness :
    ∃ line, (sourceLines "ab\ncd".data).head? = some (line, 0) :=
  (C5_sourceinfo_line_invariants "ab\ncd".data).2.1 (by decide)

/-! ## Diagnostic model (src/diagnostic.rs) -/

/-- `RuleDescription` (src/rules/api.rs): immutable metadata for one rule. -/
structure RuleDescription where
  group_number : Nat
  letter : Char
  code : String
  name : String
  description : String
deriving DecidableEq, Repr

/-- `SourceRange` (src/diagnostic.rs): a byte range plus 0-indexed
(row, column) start and end positions. -/
structure SourceRange where
  bytes : Nat × Nat
  start_pos : Nat × Nat
  end_pos : Nat × Nat
deriving DecidableEq, Repr

/-- `Span` (src/diagnostic.rs): a `SourceRange` with filename and label. -/
structure Span where
  filename : String
  range : SourceRange
  label : String
deriving DecidableEq, Repr

/-- `Diagnostic` (src/diagnostic.rs): rule, message, violation spans,
reference spans, optional suggestion. -/
structure Diagnostic where
  rule : RuleDescription
  message : String
  violations : List Span
  references : List Span
  suggestion : Option String
deriving DecidableEq, Repr

/-- `line_width` (src/rules/rule2a.rs lines 117-119):
`line.width() + 7 * (number of tabs)`. The per-character display width
assigned by the external `unicode_width` crate's `str` implementation is
abstracted as the parameter `w`. -/
def line_width (w : Char → Nat) (line : List Char) : Nat :=
  (line.map w).sum + 7 * line.count '\t'

/-- Rust `str::trim_end()`: drop the longest trailing run of characters
with the Unicode `White_Space` property. -/
def trimEnd (line : List Char) : List Char :=
  (line.reverse.dropWhile isRustWhitespace).reverse

/-- The static description returned by `Rule03e::describe`. -/
def rule03eDescription : RuleDescription :=
  ⟨3, 'E', "III:E", "TrailingWhitespace",
    "lines must not have trailing whitespace"⟩

/-- `Rule03e::check` (src/rules/rule03e.rs lines 46-73): for every line
whose `trim_end` is shorter than the line, emit a diagnostic spanning the
trailing whitespace, with `start_pos`/`end_pos` built as in the source:
the first component is `index`, the line's starting byte offset. -/
def rule03eCheck (w : Char → Nat) (filename : String)
    (lines : List (List Char × Nat)) : List Diagnostic :=
  lines.filterMap fun lp =>
    let line := lp.1
    let index := lp.2
    let trimmed_line := trimEnd line
    if utf8Length trimmed_line ≠ utf8Length line then
      some
        { rule := rule03eDescription
          message := "Line contains trailing whitespace"
          violations :=
            [{ filename := filename
               range :=
                 { bytes :=
                     (index + utf8Length trimmed_line,
                      index + utf8Length line)
                   start_pos := (index, line_width w trimmed_line)
                   end_pos := (index, line_width w line) }
               label := "" }]
          references := []
          suggestion := none }
    else none

/-- Slice the first `n` bytes of a string as the Rust byte-slice `&s[..n]`
does: `none` models the panic when `n` is not a character boundary or is
out of range. -/
def utf8Take (l : List Char) (n : Nat) : Option (List Char) :=
  if n = 0 then some []
  else
    match l with
    | [] => none
    | c :: cs =>
      if utf8Len c ≤ n then (utf8Take cs (n - utf8Len c)).map (c :: ·)
      else none

/-- `SourceRange::from_byte_range` (src/diagnostic.rs lines 201-228): find
the start and end lines by `partition_point` over the line start offsets
(`checked_sub(1).unwrap()` modelled by `none` on underflow), then compute
display columns of the line prefixes up to the byte bounds. -/
def from_byte_range (w : Char → Nat) (lines : List (List Char × Nat))
    (lo hi : Nat) : Option SourceRange := do
  let start_part := (lines.takeWhile (fun lp => lp.2 ≤ lo)).length
  let start_line_i ← if start_part = 0 then none else some (start_part - 1)
  let start_line ← lines.get? start_line_i
  let start_selected ← utf8Take start_line.1 (lo - start_line.2)
  let end_part := (lines.takeWhile (fun lp => lp.2 ≤ hi)).length
  let end_line_i ← if end_part = 0 then none else some (end_part - 1)
  let end_line ← lines.get? end_line_i
  let end_selected ← utf8Take end_line.1 (hi - end_line.2)
  pure
    { bytes := (lo, hi)
      start_pos := (start_line_i, line_width w start_selected)
      end_pos := (end_line_i, line_width w end_selected) }

/-- C1 (code_bug): on the input `"int main() \x7b \n  return 0;\t\n\x7d\n"`,
Rule III:E's second diagnostic covers bytes 25..26 but stores 14 — the
line's starting byte offset — in the row field of its positions, while the
source model (`from_byte_range`) places byte 25 on row 1. The row fields
of these diagnostics are byte offsets, not line numbers, for every line
after the first. -/
theorem C1_rule03e_rows_are_byte_offsets (w : Char → Nat) :
    ((rule03eCheck w "test.c"
          (sourceLines "int main() \x7b \n  return 0;\t\n\x7d\n".data)).map
        fun d => d.violations.map fun s => (s.range.bytes, s.range.start_pos.1)) =
      [[((12, 13), 0)], [((25, 26), 14)]] ∧
    (from_byte_range w (sourceLines "int main() \x7b \n  return 0;\t\n\x7d\n".data)
          25 26).map (fun r => r.start_pos.1) = some 1 := by
  have hl : sourceLines "int main() \x7b \n  return 0;\t\n\x7d\n".data =
      [("int main() \x7b ".data, 0), ("  return 0;\t".data, 14), ("\x7d".data, 27)] := by
    simp [sourceLines, linesWithPosition, utf8Length, utf8Len]
  rw [hl]
  constructor <;> rfl

/-! ## Indentation width (src/helpers/mod.rs lines 230-240) -/

/-- `indent_width` (src/helpers/mod.rs): sum, over the leading whitespace
of the line, of 8 for a tab and `c.width().unwrap()` for anything else.
The external `unicode_width::UnicodeWidthChar::width` is abstracted as
`wc : Char → Option Nat`; the `.unwrap()` panic is modelled by `none`. -/
def indent_width (wc : Char → Option Nat) (line : List Char) :
    Option Nat :=
  ((line.takeWhile isRustWhitespace).mapM fun c =>
      if c = '\t' then some 8 else wc c).map List.sum

/-- Modelled from the spec: the external `unicode_width` crate's
per-character width. Its documented contract gives `None` on control
characters (C0 including U+000B/U+000C/U+000D, DEL, C1); only the code
points exercised by the theorems below matter, and all non-control
characters appearing there are narrow, width 1. -/
def rustCharWidth (c : Char) : Option Nat :=
  if c.toNat < 0x20 ∨ (0x7F ≤ c.toNat ∧ c.toNat ≤ 0x9F) then none
  else some 1

/-- C7 (code_bug): `indent_width` is not total. On a line whose leading
whitespace contains the whitespace control character U+000B (for which
the width crate returns `None`), the `unwrap()` panics — modelled here as
`none` — contradicting the function's own SAFETY comment and the claim
that the width computation is total with control characters counting 0. -/
theorem C7_indent_width_panics_on_vertical_tab (wc : Char → Option Nat)
    (h : wc '\x0B' = none) :
    indent_width wc ('\x0B' :: "int x;".data) = none := by
  have ht : ('\x0B' :: "int x;".data).takeWhile isRustWhitespace =
      ['\x0B'] := by decide
  rw [indent_width, ht]
  simp [List.mapM, List.mapM.loop, h]

/-- Witness for C7: the modelled crate width is `None` at U+000B and the
panic is reached. -/
theorem C7_indent_width_panics_witness :
    rustCharWidth '\x0B' = none ∧
      indent_width rustCharWidth ('\x0B' :: "int x;".data) = none :=
  ⟨by decide, C7_indent_width_panics_on_vertical_tab rustCharWidth (by decide)⟩

/-! ## Rule II:B — function length (src/rules/rule02b.rs) -/

/-- `PAGE_SIZE` (src/rules/rule02b.rs line 42): lines per page. -/
def PAGE_SIZE : Nat := 61

/-- `MAX_PAGES_PER_FUNCTION` (src/rules/rule02b.rs line 44). -/
def MAX_PAGES_PER_FUNCTION : Nat := 2

/-- A `function_definition` node captured by Rule II:B's query, reduced to
the observable surface the core uses on the opaque tree-sitter node:
byte start/end, (row, column) start/end, and the function name that
`helpers::function_definition_name` extracts by descending the
`declarator` chain to an `identifier`. -/
structure FunctionCapture where
  start_row : Nat
  start_col : Nat
  end_row : Nat
  end_col : Nat
  start_byte : Nat
  end_byte : Nat
  name : String
deriving DecidableEq, Repr

/-- The static description returned by `Rule02b::describe`. -/
def rule02bDescription : RuleDescription :=
  ⟨2, 'B', "II:B", "FunctionLength",
    "functions must be kept reasonably small"⟩

/-- `Rule02b::check` (src/rules/rule02b.rs lines 70-108): for each
captured `function_definition` node, compute
`length = end.row - start.row + 1` and, when it exceeds
`MAX_PAGES_PER_FUNCTION * PAGE_SIZE`, push a diagnostic whose single
violation is the node's whole range, labelled with the extracted function
name and the measured length. -/
def rule02bCheck (filename : String) (captures : List FunctionCapture) :
    List Diagnostic :=
  captures.filterMap fun node =>
    let length := node.end_row - node.start_row + 1
    if length > MAX_PAGES_PER_FUNCTION * PAGE_SIZE then
      some
        { rule := rule02bDescription
          message := "Functions must fit on " ++
            toString MAX_PAGES_PER_FUNCTION ++
            " pages, i.e. be no longer than " ++
            toString (MAX_PAGES_PER_FUNCTION * PAGE_SIZE) ++ " lines"
          violations :=
            [{ filename := filename
               range :=
                 { bytes := (node.start_byte, node.end_byte)
                   start_pos := (node.start_row, node.start_col)
                   end_pos := (node.end_row, node.end_col) }
               label := "Function \x60" ++ node.name ++ "()\x27 is " ++
                 toString length ++ " lines long" }]
          references := []
          suggestion := none }
    else none

theorem filterMap_ite {α β : Type} (p : α → Prop) [DecidablePred p]
    (g : α → β) (l : List α) :
    (l.filterMap fun a => if p a then some (g a) else none) =
      (l.filter fun a => decide (p a)).map g := by
  induction l with
  | nil => rfl
  | cons a t ih => by_cases hp : p a <;> simp [hp, ih]

/-- Modelled from the spec: the single `function_definition` capture the
external tree-sitter parser produces on the scenario-E input (the line
`"int main() \x7b"`, then 122 lines `"  (void) 0;"`, then `"\x7d"`, 124 lines
in all): it spans rows 0 through 123 and bytes 0..1478, and the extracted
function name is `main`. -/
def scenarioECapture : FunctionCapture :=
  ⟨0, 0, 123, 1, 0, 1478, "main"⟩

/-- C2: Rule II:B emits a diagnostic for a function node exactly when
`end_row - start_row + 1 > 122`, with one violation span covering the
whole function, labelled with the extracted name and measured length; a
function spanning exactly 122 lines produces nothing, and the 124-line
scenario-E capture produces exactly one diagnostic labelled
`Function \x60main()\x27 is 124 lines long`. -/
theorem C2_rule02b_function_length :
    (∀ (filename : String) (captures : List FunctionCapture),
      (∀ n ∈ captures, n.start_row ≤ n.end_row) →
      rule02bCheck filename captures =
        ((captures.filter fun n =>
            122 < n.end_row - n.start_row + 1).map fun n =>
          { rule := rule02bDescription
            message := "Functions must fit on " ++ toString 2 ++
              " pages, i.e. be no longer than " ++ toString 122 ++ " lines"
            violations :=
              [{ filename := filename
                 range :=
                   { bytes := (n.start_byte, n.end_byte)
                     start_pos := (n.start_row, n.start_col)
                     end_pos := (n.end_row, n.end_col) }
                 label := "Function \x60" ++ n.name ++ "()\x27 is " ++
                   toString (n.end_row - n.start_row + 1) ++ " lines long" }]
            references := []
            suggestion := none })) ∧
    rule02bCheck "" [⟨0, 0, 121, 1, 0, 100, "f"⟩] = [] ∧
    ((rule02bCheck "" [scenarioECapture]).map fun d =>
        (d.rule.code, d.message, d.violations.map fun s => (s.range, s.label))) =
      [("II:B",
        "Functions must fit on 2 pages, i.e. be no longer than 122 lines",
        [({ bytes := (0, 1478), start_pos := (0, 0), end_pos := (123, 1) },
          "Function \x60main()\x27 is 124 lines long")])] := by
  refine ⟨?_, rfl, rfl⟩
  intro filename captures _
  exact filterMap_ite _ _ _

/-- Witness for C2's hypothesis at the scenario-E capture. -/
theorem C2_rule02b_function_length_witness :
    (rule02bCheck "" [scenarioECapture]).length = 1 := by
  rw [C2_rule02b_function_length.1 "" [scenarioECapture] (by decide)]
  rfl

/-! ## Rule XI:B — DOS line endings (src/rules/rule11b.rs) -/

/-- A label of the external `codespan_reporting` diagnostic type: a byte
range with an attached message. -/
structure CodespanLabel where
  range : Nat × Nat
  message : String
deriving DecidableEq, Repr

/-- The external `codespan_reporting` diagnostic as used by rules XI:A and
XI:B: optional code, message, labels, notes. -/
structure CodespanDiagnostic where
  code : Option String
  message : String
  labels : List CodespanLabel
  notes : List String
deriving DecidableEq, Repr

/-- `code_str.split('\n')` with the running start position maintained by
`Rule11b::check` (src/rules/rule11b.rs lines 52-59): every segment between
newlines, including a trailing empty segment when the text ends with
`'\n'`, paired with its starting byte offset. -/
def splitNlWithPos (code : List Char) (pos : Nat) :
    List (List Char × Nat) :=
  match hf : code.findIdx? (· = '\n') with
  | some eolIndex =>
    let line := code.take eolIndex
    (line, pos) ::
      splitNlWithPos (code.drop (eolIndex + 1))
        (pos + utf8Length line + 1)
  | none => [(code, pos)]
termination_by code.length
decreasing_by
  obtain ⟨hlt, -, -⟩ := List.findIdx?_eq_some_iff_getElem.mp hf
  simp only [List.length_drop]
  omega

/-- The `'\n'`-separated segments that end with `'\r'` (the filtered
`dos_lines` iterator of `Rule11b::check`). -/
def dosLines (code : List Char) : List (List Char × Nat) :=
  (splitNlWithPos code 0).filter fun lp => lp.1.getLast? = some '\x0D'

/-- The hard-coded note attached to every XI:B diagnostic. -/
def rule11bVimNote : String :=
  "See \x1b[4m:h \x27fileformat\x27\x1b[m in Vim for info on how to fix this"

/-- The suppression note appended by `Rule11b::check` when the limit is
reached, with `remaining` the count of unreported DOS lines. -/
def rule11bSuppNote (remaining : Nat) : String :=
  toString remaining ++
    " more lines contain DOS endings, but those warnings are suppressed to avoid noise."

/-- The diagnostic `Rule11b::check` pushes for one DOS line: code `XI:B`,
a single primary label on the byte of the final `'\r'`, and the Vim
note. -/
def mkRule11bDiag (lp : List Char × Nat) : CodespanDiagnostic :=
  let cr_pos := lp.2 + utf8Length lp.1 - 1
  { code := some "XI:B"
    message := "Line contains DOS-style ending"
    labels := [⟨(cr_pos, cr_pos + 1), ""⟩]
    notes := [rule11bVimNote] }

/-- The emission loop of `Rule11b::check` (src/rules/rule11b.rs lines
63-87): push a diagnostic per DOS line; on reaching the configured
maximum, append the suppression note (counting the remaining DOS lines)
to the last diagnostic and stop. -/
def rule11bLoop (max : Option Nat) (emitted : Nat) :
    List (List Char × Nat) → List CodespanDiagnostic
  | [] => []
  | lp :: rest =>
    let d := mkRule11bDiag lp
    if max = some (emitted + 1) then
      [{ d with notes := d.notes ++ [rule11bSuppNote rest.length] }]
    else d :: rule11bLoop max (emitted + 1) rest

/-- `Rule11b::check` (src/rules/rule11b.rs lines 46-90). The
`NonZeroUsize` bound is modelled as an optional `Nat` that is positive
whenever present. -/
def rule11bCheck (max : Option Nat) (code : List Char) :
    List CodespanDiagnostic :=
  rule11bLoop max 0 (dosLines code)

/-- Rust `str::char_indices()`: characters paired with their byte
offsets. -/
def charIndicesFrom (pos : Nat) : List Char → List (Nat × Char)
  | [] => []
  | c :: cs => (pos, c) :: charIndicesFrom (pos + utf8Len c) cs

/-- The character starting at a given byte offset of a string (`none` when
the offset is out of range or not a character boundary). -/
def charAtByte : List Char → Nat → Option Char
  | [], _ => none
  | c :: cs, n =>
    if n = 0 then some c
    else if n < utf8Len c then none
    else charAtByte cs (n - utf8Len c)

theorem utf8Length_append (a b : List Char) :
    utf8Length (a ++ b) = utf8Length a + utf8Length b := by
  simp [utf8Length]

theorem charAtByte_append (a b : List Char) (n : Nat) :
    charAtByte (a ++ b) (utf8Length a + n) = charAtByte b n := by
  induction a with
  | nil => simp [utf8Length]
  | cons c cs ih =>
    have h1 : 1 ≤ utf8Len c := by
      rw [utf8Len]
      split <;> try omega
      split <;> try omega
      split <;> omega
    rw [List.cons_append, charAtByte]
    have hlen : utf8Length (c :: cs) = utf8Len c + utf8Length cs := by
      simp [utf8Length]
    rw [hlen]
    rw [if_neg (by omega), if_neg (by omega)]
    have : utf8Len c + utf8Length cs + n - utf8Len c = utf8Length cs + n := by
      omega
    rw [this, ih]

/-- With no maximum configured, the XI:B loop is exactly a map over the
DOS lines. -/
theorem rule11bLoop_none (emitted : Nat) (l : List (List Char × Nat)) :
    rule11bLoop none emitted l = l.map mkRule11bDiag := by
  induction l generalizing emitted with
  | nil => rfl
  | cons lp rest ih => simp [rule11bLoop, ih]

/-- Every segment yielded by `splitNlWithPos` occurs in the input at the
byte offset it carries. -/
theorem splitNl_mem_decomp (code : List Char) (pos : Nat) :
    ∀ lp ∈ splitNlWithPos code pos,
      ∃ pre post, code = pre ++ lp.1 ++ post ∧
        lp.2 = pos + utf8Length pre := by
  induction code, pos using splitNlWithPos.induct with
  | case1 code pos eol hf line ih =>
    intro lp hlp
    rw [splitNlWithPos] at hlp
    split at hlp
    case _ eol' hf' =>
      have heq : eol = eol' := Option.some.inj (hf.symm.trans hf')
      subst heq
      obtain ⟨hsplit, -⟩ := findIdx_nl_decomp hf
      rcases List.mem_cons.mp hlp with hhd | htl
      · subst hhd
        exact ⟨[], '\n' :: code.drop (eol + 1), by simpa using hsplit.symm, by
          simp [utf8Length]⟩
      · obtain ⟨pre', post', hdec, hpos⟩ := ih lp htl
        refine ⟨code.take eol ++ '\n' :: pre', post', ?_, ?_⟩
        · conv_lhs => rw [← hsplit]
          rw [hdec]
          simp
        · rw [hpos, utf8Length_append]
          have h1 : utf8Length ('\n' :: pre') = 1 + utf8Length pre' := by
            simp [utf8Length, utf8Len]
          have h2 : utf8Length line = utf8Length (code.take eol) := rfl
          rw [h1]
          omega
    case _ hf' =>
      rw [hf'] at hf
      cases hf
  | case2 code pos hf =>
    intro lp hlp
    rw [splitNlWithPos] at hlp
    split at hlp
    case _ eol' hf' =>
      rw [hf'] at hf
      cases hf
    case _ hf' =>
      rcases List.mem_cons.mp hlp with hhd | htl
      · subst hhd
        exact ⟨[], [], by simp, by simp [utf8Length]⟩
      · simp at htl

/-- The byte addressed by each XI:B label is the segment's final carriage
return. -/
theorem dosLines_cr (code : List Char) :
    ∀ lp ∈ dosLines code,
      charAtByte code (lp.2 + utf8Length lp.1 - 1) = some '\x0D' := by
  intro lp hlp
  rw [dosLines, List.mem_filter] at hlp
  obtain ⟨hmem, hcr⟩ := hlp
  have hcr' : lp.1.getLast? = some '\x0D' := by
    simpa using hcr
  obtain ⟨pre, post, hdecomp, hpos⟩ := splitNl_mem_decomp code 0 lp hmem
  have hne : lp.1 ≠ [] := by
    intro h
    rw [h] at hcr'
    simp at hcr'
  have hinit : lp.1.dropLast ++ ['\x0D'] = lp.1 := by
    have hg := List.getLast?_eq_getLast lp.1 hne
    rw [hcr'] at hg
    have hlast : lp.1.getLast hne = '\x0D' := (Option.some.inj hg).symm
    rw [← hlast]
    exact List.dropLast_append_getLast hne
  have hlen : utf8Length lp.1 = utf8Length lp.1.dropLast + 1 := by
    conv_lhs => rw [← hinit]
    rw [utf8Length_append]
    rfl
  have hoffset : lp.2 + utf8Length lp.1 - 1 =
      utf8Length (pre ++ lp.1.dropLast) + 0 := by
    rw [utf8Length_append]
    omega
  rw [hdecomp, hoffset]
  have hrearrange : pre ++ lp.1 ++ post =
      (pre ++ lp.1.dropLast) ++ ('\x0D' :: post) := by
    conv_lhs => rw [← hinit]
    simp
  rw [hrearrange, charAtByte_append]
  rfl

/-- C4: Rule XI:B emits one diagnostic per newline-split segment ending in
`'\r'`, each with a single one-byte primary span at that `'\r'`; on the
CRLF `main` program it emits three such diagnostics, and with the maximum
set to 1 it emits exactly one, whose added note begins with "2". -/
theorem C4_rule11b_dos_endings :
    (∀ code : List Char,
      rule11bCheck none code = (dosLines code).map mkRule11bDiag) ∧
    (∀ code : List Char, ∀ lp ∈ dosLines code,
      charAtByte code (lp.2 + utf8Length lp.1 - 1) = some '\x0D') ∧
    ((rule11bCheck none "int main() \x7b\r\n  return 0;\r\n\x7d\r\n".data).map
        fun d => (d.code, d.labels)) =
      [(some "XI:B", [⟨(12, 13), ""⟩]),
       (some "XI:B", [⟨(25, 26), ""⟩]),
       (some "XI:B", [⟨(28, 29), ""⟩])] ∧
    rule11bCheck (some 1) "int main() \x7b\r\n  return 0;\r\n\x7d\r\n".data =
      [{ code := some "XI:B"
         message := "Line contains DOS-style ending"
         labels := [⟨(12, 13), ""⟩]
         notes := [rule11bVimNote, rule11bSuppNote 2] }] ∧
    (rule11bSuppNote 2).take 1 = "2" := by
  have hsplit : splitNlWithPos "int main() \x7b\r\n  return 0;\r\n\x7d\r\n".data 0 =
      [("int main() \x7b\r".data, 0), ("  return 0;\r".data, 14),
       ("\x7d\r".data, 27), ([], 30)] := by
    simp [splitNlWithPos, utf8Length, utf8Len]
  refine ⟨fun code => rule11bLoop_none 0 (dosLines code), dosLines_cr, ?_, ?_, rfl⟩
  · simp only [rule11bCheck, dosLines, hsplit]
    rfl
  · simp only [rule11bCheck, dosLines, hsplit]
    rfl

/-- Witness for C4 at a concrete DOS line. -/
theorem C4_rule11b_dos_endings_witness :
    charAtByte "a\r\n".data (0 + utf8Length "a\r".data - 1) = some '\x0D' := by
  have hmem : ("a\r".data, 0) ∈ dosLines "a\r\n".data := by
    simp [dosLines, splitNlWithPos, utf8Length, utf8Len, List.filter]
  exact C4_rule11b_dos_endings.2.1 "a\r\n".data ("a\r".data, 0) hmem

/-! ## Rule XI:A — tabs in indentation (src/rules/rule11a.rs) -/

/-- The suppression note appended by `Rule11a::check` when the limit is
applied, with `remaining` the count of truncated diagnostics. -/
def rule11aSuppNote (remaining : Nat) : String :=
  toString remaining ++
    " more lines contain tabs, but those warnings are suppressed to avoid noise."

/-- The per-line body of `Rule11a::check` (src/rules/rule11a.rs lines
50-92). The indentation slice `&line[..line.len() - line.trim_start().len()]`
is the leading run of whitespace. All-tab indentation yields one label
over the whole run; mixed indentation yields one label per tab byte (from
`char_indices`) plus a fixed note; whitespace-only indentation without
tabs yields nothing. -/
def rule11aCheckLine (lp : List Char × Nat) : Option CodespanDiagnostic :=
  let line := lp.1
  let start_pos := lp.2
  let indentation := line.takeWhile isRustWhitespace
  if indentation = [] then none
  else if indentation.all (· = '\t') then
    some
      { code := some "XI:A"
        message := "Use spaces instead of tabs for indentation"
        labels := [⟨(start_pos, start_pos + utf8Length indentation),
          "Indentation uses tabs"⟩]
        notes := [] }
  else
    let labels :=
      (((charIndicesFrom 0 line).takeWhile fun pc =>
          isRustWhitespace pc.2).filter fun pc => pc.2 = '\t').map
        fun pc =>
          (⟨(start_pos + pc.1, start_pos + pc.1 + 1),
            "Tab character found here"⟩ : CodespanLabel)
    if labels = [] then none
    else
      some
        { code := some "XI:A"
          message := "Use spaces instead of tabs for indentation"
          labels := labels
          notes := ["Line mixes spaces and tabs"] }

/-- The unlimited diagnostic list of `Rule11a::check`: one pass over the
lines. -/
def rule11aRaw (code : List Char) : List CodespanDiagnostic :=
  (sourceLines code).filterMap rule11aCheckLine

/-- `Rule11a::check` (src/rules/rule11a.rs lines 45-106) including the
limit post-processing of lines 94-103: when a maximum `m` is configured
and at least `m` diagnostics were produced, truncate to `m` and append
the suppression note to the (unwrapped) last diagnostic; the unwrap panic
is modelled by `none`. -/
def rule11aCheck (max : Option Nat) (code : List Char) :
    Option (List CodespanDiagnostic) :=
  let diagnostics := rule11aRaw code
  match max with
  | none => some diagnostics
  | some m =>
    if m ≤ diagnostics.length then
      let remaining := diagnostics.length - m
      let truncated := diagnostics.take m
      match truncated.getLast? with
      | none => none
      | some last =>
        some (truncated.dropLast ++
          [{ last with notes := last.notes ++ [rule11aSuppNote remaining] }])
    else some diagnostics

/-- The notes a raw XI:A diagnostic carries before the limit step. -/
theorem rule11aRaw_notes (code : List Char) :
    ∀ d ∈ rule11aRaw code,
      d.notes = [] ∨ d.notes = ["Line mixes spaces and tabs"] := by
  intro d hd
  rw [rule11aRaw, List.mem_filterMap] at hd
  obtain ⟨lp, -, hline⟩ := hd
  rw [rule11aCheckLine] at hline
  split at hline
  · cases hline
  · split at hline
    · cases hline
      left
      rfl
    · simp at hline
      obtain ⟨-, hline⟩ := hline
      rw [← hline]
      right
      rfl

/-- A suppression note is never one of the raw notes. -/
theorem rule11aSuppNote_ne_mixes (k : Nat) :
    rule11aSuppNote k ≠ "Line mixes spaces and tabs" := by
  intro h
  have hlen : (rule11aSuppNote k).length =
      (toString k).length + 75 := by
    rw [rule11aSuppNote, String.length_append]
    have h74 :
        (" more lines contain tabs, but those warnings are suppressed to avoid noise.").length
          = 75 := by decide
    omega
  rw [h] at hlen
  have h26 : ("Line mixes spaces and tabs").length = 26 := by decide
  omega

/-- C8 counterexample: with the bound set to 1 and an input producing
exactly one diagnostic (one tab-indented line), the rule still appends a
suppression note — reporting 0 suppressed lines — although the claim says
no note is added when the production does not strictly exceed the bound. -/
theorem C8_rule11a_limit_counterexample :
    (rule11aRaw "\tint x;\n".data).length = 1 ∧
    ((rule11aRaw "\tint x;\n".data).map fun d => d.notes) = [[]] ∧
    rule11aCheck (some 1) "\tint x;\n".data =
      some [{ code := some "XI:A"
              message := "Use spaces instead of tabs for indentation"
              labels := [⟨(0, 1), "Indentation uses tabs"⟩]
              notes := [rule11aSuppNote 0] }] := by
  have hl : sourceLines "\tint x;\n".data = [("\tint x;".data, 0)] := by
    simp [sourceLines, linesWithPosition, utf8Length, utf8Len]
  refine ⟨?_, ?_, ?_⟩
  · rw [rule11aRaw, hl]
    rfl
  · rw [rule11aRaw, hl]
    rfl
  · simp only [rule11aCheck, rule11aRaw, hl]
    rfl

/-- C8 (amended): for a configured bound `m ≥ 1`, Rule XI:A returns at
most `m` diagnostics, and the returned list carries a suppression note
exactly when the unlimited production reaches the bound (`≥ m`, not only
when it strictly exceeds it; at exactly `m` the note reports 0 suppressed
lines). -/
theorem C8_rule11a_limit (code : List Char) (m : Nat) (hm : 1 ≤ m) :
    ∃ ds, rule11aCheck (some m) code = some ds ∧
      ds.length ≤ m ∧
      ((∃ d ∈ ds, ∃ k, rule11aSuppNote k ∈ d.notes) ↔
        m ≤ (rule11aRaw code).length) := by
  by_cases hge : m ≤ (rule11aRaw code).length
  · have hlen : ((rule11aRaw code).take m).length = m := by
      rw [List.length_take]
      omega
    have hne : (rule11aRaw code).take m ≠ [] := by
      intro hnil
      rw [hnil] at hlen
      simp at hlen
      omega
    have hlast := List.getLast?_eq_getLast _ hne
    refine ⟨((rule11aRaw code).take m).dropLast ++
      [{ ((rule11aRaw code).take m).getLast hne with
         notes := (((rule11aRaw code).take m).getLast hne).notes ++
           [rule11aSuppNote ((rule11aRaw code).length - m)] }], ?_, ?_, ?_⟩
    · simp only [rule11aCheck]
      rw [if_pos hge, hlast]
    · rw [List.length_append, List.length_dropLast, hlen]
      simp
      omega
    · constructor
      · intro _
        exact hge
      · intro _
        refine ⟨_, List.mem_append_right _ (List.mem_singleton_self _), ?_⟩
        exact ⟨(rule11aRaw code).length - m,
          List.mem_append_right _ (List.mem_singleton_self _)⟩
  · refine ⟨rule11aRaw code, ?_, ?_, ?_⟩
    · simp only [rule11aCheck]
      rw [if_neg hge]
    · omega
    · constructor
      · intro hsup
        obtain ⟨d, hd, k, hk⟩ := hsup
        rcases rule11aRaw_notes code d hd with hn | hn
        · rw [hn] at hk
          simp at hk
        · rw [hn] at hk
          rcases List.mem_singleton.mp hk with heq
          exact absurd heq (rule11aSuppNote_ne_mixes k)
      · intro hc
        exact absurd hc hge

/-- Witness for C8's amended theorem at a concrete bound and input. -/
theorem C8_rule11a_limit_witness :
    ∃ ds, rule11aCheck (some 1) "\tint x;\n".data = some ds ∧
      ds.length ≤ 1 ∧
      ((∃ d ∈ ds, ∃ k, rule11aSuppNote k ∈ d.notes) ↔
        1 ≤ (rule11aRaw "\tint x;\n".data).length) :=
  C8_rule11a_limit "\tint x;\n".data 1 (by decide)

/-! ## Crash report file name (src/crashlog/src/lib.rs lines 147-151) -/

/-- Lowercase hexadecimal digits of a number, most significant first, as
Rust's `{:x}` produces them (`"0"` for zero). -/
def hexDigits (n : Nat) : List Char :=
  if n < 16 then [Nat.digitChar n]
  else hexDigits (n / 16) ++ [Nat.digitChar (n % 16)]
termination_by n
decreasing_by
  have : 16 ≤ n := Nat.le_of_not_lt (by assumption)
  omega

/-- Rust's `format!("\x7b:08x\x7d", n)`: the lowercase hex digits of `n`,
zero-padded on the left to a minimum width of 8. -/
def rustHexFormat8 (n : Nat) : List Char :=
  List.replicate (8 - (hexDigits n).length) '0' ++ hexDigits n

/-- The file name `try_generate_report` pushes onto the temp directory:
`format!("\x7b:08x\x7d.txt", fastrand::u64(0..=u64::MAX))`. -/
def crashReportFileName (token : Nat) : List Char :=
  rustHexFormat8 token ++ ".txt".data

theorem hexDigits_length_pos (n : Nat) : 1 ≤ (hexDigits n).length := by
  rw [hexDigits]
  split
  · simp
  · simp

theorem hexDigits_length_le : ∀ k n, n < 16 ^ k → 1 ≤ k →
    (hexDigits n).length ≤ k := by
  intro k
  induction k with
  | zero => omega
  | succ k ih =>
    intro n hn _
    rw [hexDigits]
    split
    · simpa using Nat.le_add_left 1 k
    · have h16 : 16 ≤ n := Nat.le_of_not_lt (by assumption)
      have hk : 1 ≤ k := by
        by_contra hk0
        have : k = 0 := by omega
        subst this
        simp at hn
        omega
      have hdiv : n / 16 < 16 ^ k := by
        rw [Nat.div_lt_iff_lt_mul (by norm_num)]
        calc n < 16 ^ (k + 1) := hn
        _ = 16 ^ k * 16 := by ring
      have := ih (n / 16) hdiv hk
      simp only [List.length_append, List.length_cons, List.length_nil]
      omega

theorem hexDigits_length_ge : ∀ k n, 16 ^ k ≤ n →
    k + 1 ≤ (hexDigits n).length := by
  intro k
  induction k with
  | zero => intro n _; simpa using hexDigits_length_pos n
  | succ k ih =>
    intro n hn
    have h16 : 16 ≤ n := by
      have : 16 ≤ 16 ^ (k + 1) := by
        calc 16 = 16 ^ 1 := by norm_num
        _ ≤ 16 ^ (k + 1) := Nat.pow_le_pow_right (by norm_num) (by omega)
      omega
    rw [hexDigits]
    rw [if_neg (by omega)]
    have hdiv : 16 ^ k ≤ n / 16 := by
      rw [Nat.le_div_iff_mul_le (by norm_num)]
      calc 16 ^ k * 16 = 16 ^ (k + 1) := by ring
      _ ≤ n := hn
    have := ih (n / 16) hdiv
    simp only [List.length_append, List.length_cons, List.length_nil]
    omega

/-- C9 counterexample: at token 0 the generated file name is
`00000000.txt` — 8 hexadecimal digits before the extension, not 16. -/
theorem C9_crash_report_name_counterexample :
    crashReportFileName 0 = "00000000.txt".data ∧
      (crashReportFileName 0).length = 12 := by
  have h0 : hexDigits 0 = ['0'] := by
    rw [hexDigits]
    simp [Nat.digitChar]
  constructor
  · rw [crashReportFileName, rustHexFormat8, h0]
    rfl
  · rw [crashReportFileName, rustHexFormat8, h0]
    rfl

/-- C9 (amended): the crash-report file name is the token's lowercase hex
representation zero-padded to a minimum of 8 digits plus `.txt`: the
digit count before the extension is between 8 and 16, and it is exactly
16 precisely when the token is at least `16^15` — not for every u64
token. -/
theorem C9_crash_report_name (token : Nat) (htoken : token < 2 ^ 64) :
    crashReportFileName token = rustHexFormat8 token ++ ".txt".data ∧
    8 ≤ (rustHexFormat8 token).length ∧
    (rustHexFormat8 token).length ≤ 16 ∧
    ((rustHexFormat8 token).length = 16 ↔ 16 ^ 15 ≤ token) := by
  have hlen : (rustHexFormat8 token).length =
      max 8 (hexDigits token).length := by
    rw [rustHexFormat8, List.length_append, List.length_replicate]
    omega
  have hle : (hexDigits token).length ≤ 16 := by
    apply hexDigits_length_le 16 token _ (by norm_num)
    calc token < 2 ^ 64 := htoken
    _ = 16 ^ 16 := by norm_num
  refine ⟨rfl, by omega, by omega, ?_, ?_⟩
  · intro h16
    by_contra hlt
    have : (hexDigits token).length ≤ 15 := by
      apply hexDigits_length_le 15 token (by omega) (by norm_num)
    omega
  · intro hge
    have := hexDigits_length_ge 15 token hge
    omega

/-- Witness for C9's amended theorem at a concrete token. -/
theorem C9_crash_report_name_witness :
    crashReportFileName 255 = rustHexFormat8 255 ++ ".txt".data ∧
    8 ≤ (rustHexFormat8 255).length ∧
    (rustHexFormat8 255).length ≤ 16 ∧
    ((rustHexFormat8 255).length = 16 ↔ 16 ^ 15 ≤ 255) :=
  C9_crash_report_name 255 (by norm_num)

/-! ## Rule I:A fix canonicalization (src/rules/rule1a.rs lines 106-124) -/

/-- The character classification surface `guess_lower_snake_case` draws
from the Rust standard library: `char::is_uppercase`,
`char::is_lowercase`, and `char::to_lowercase` (which may expand to
several characters). -/
structure CharSpec where
  is_uppercase : Char → Bool
  is_lowercase : Char → Bool
  to_lowercase : Char → List Char

/-- The loop of `guess_lower_snake_case`: walk the characters tracking
whether the position is the first (`i != 0` in the source) and whether
the previous character was lowercase. An uppercase character is preceded
by `'_'` when it follows a lowercase one (not at position 0) and is
replaced by its lowercase expansion; any other character is kept, and
`last_was_lower` is set only when it is lowercase (otherwise it keeps its
previous value). -/
def glscAux (spec : CharSpec) : List Char → Bool → Bool → List Char
  | [], _, _ => []
  | c :: cs, isFirst, lastWasLower =>
    if spec.is_uppercase c then
      (if isFirst = false ∧ lastWasLower = true then ['_'] else []) ++
        spec.to_lowercase c ++ glscAux spec cs false false
    else
      c :: glscAux spec cs false
        (if spec.is_lowercase c then true else lastWasLower)

/-- `guess_lower_snake_case` (src/rules/rule1a.rs lines 106-124). -/
def guess_lower_snake_case (spec : CharSpec) (name : List Char) :
    List Char :=
  glscAux spec name true false

theorem glscAux_no_upper (spec : CharSpec)
    (hlow : ∀ c c', c' ∈ spec.to_lowercase c → spec.is_uppercase c' = false)
    (hund : spec.is_uppercase '_' = false) :
    ∀ (l : List Char) (isFirst lastWasLower : Bool),
      ∀ c ∈ glscAux spec l isFirst lastWasLower,
        spec.is_uppercase c = false := by
  intro l
  induction l with
  | nil => intro _ _ c hc; simp [glscAux] at hc
  | cons a t ih =>
    intro isFirst lastWasLower c hc
    rw [glscAux] at hc
    split at hc
    · rcases List.mem_append.mp hc with h1 | h2
      · rcases List.mem_append.mp h1 with h3 | h4
        · split at h3
          · rw [List.mem_singleton.mp h3]
            exact hund
          · simp at h3
        · exact hlow a c h4
      · exact ih false false c h2
    · rcases List.mem_cons.mp hc with h1 | h2
      · subst h1
        simpa using (by assumption : ¬spec.is_uppercase c = true)
      · exact ih false _ c h2

theorem glscAux_id_of_no_upper (spec : CharSpec) :
    ∀ (l : List Char) (isFirst lastWasLower : Bool),
      (∀ c ∈ l, spec.is_uppercase c = false) →
      glscAux spec l isFirst lastWasLower = l := by
  intro l
  induction l with
  | nil => intro _ _ _; rfl
  | cons a t ih =>
    intro isFirst lastWasLower hl
    rw [glscAux]
    rw [if_neg (by simp [hl a (List.mem_cons_self a t)])]
    rw [ih false _ fun c hc => hl c (List.mem_cons_of_mem a hc)]

/-- C10: provided the standard library's lowercase expansion never
produces an uppercase character (true of the Unicode tables), the fix
canonicalization contains no uppercase characters and is idempotent, so
the suggested replacement never matches Rule I:A's uppercase
condition. -/
theorem C10_guess_lower_snake_case (spec : CharSpec)
    (hlow : ∀ c c', c' ∈ spec.to_lowercase c → spec.is_uppercase c' = false)
    (hund : spec.is_uppercase '_' = false) :
    (∀ (name : List Char), ∀ c ∈ guess_lower_snake_case spec name,
       spec.is_uppercase c = false) ∧
    (∀ name : List Char,
       guess_lower_snake_case spec (guess_lower_snake_case spec name) =
         guess_lower_snake_case spec name) := by
  constructor
  · intro name
    exact glscAux_no_upper spec hlow hund name true false
  · intro name
    exact glscAux_id_of_no_upper spec _ true false
      (glscAux_no_upper spec hlow hund name true false)

/-- ASCII instantiation of the classification surface: uppercase and
lowercase are the ASCII letter ranges and lowercasing adds 32 to an
uppercase code point. -/
def asciiCharSpec : CharSpec where
  is_uppercase c := decide (65 ≤ c.toNat ∧ c.toNat ≤ 90)
  is_lowercase c := decide (97 ≤ c.toNat ∧ c.toNat ≤ 122)
  to_lowercase c :=
    if 65 ≤ c.toNat ∧ c.toNat ≤ 90 then [Char.ofNat (c.toNat + 32)]
    else [c]

theorem asciiCharSpec_lower_not_upper :
    ∀ c c', c' ∈ asciiCharSpec.to_lowercase c →
      asciiCharSpec.is_uppercase c' = false := by
  intro c c' hmem
  by_cases hc : 65 ≤ c.toNat ∧ c.toNat ≤ 90
  · simp only [asciiCharSpec, if_pos hc, List.mem_singleton] at hmem
    subst hmem
    have hval : (Char.ofNat (c.toNat + 32)).toNat = c.toNat + 32 := by
      rw [Char.ofNat, dif_pos]
      · rfl
      · exact Or.inl (by exact_mod_cast (by omega : c.toNat + 32 < 55296))
    simp only [asciiCharSpec]
    rw [decide_eq_false_iff_not]
    rw [hval]
    omega
  · simp only [asciiCharSpec, if_neg hc, List.mem_singleton] at hmem
    subst hmem
    simp only [asciiCharSpec]
    rw [decide_eq_false_iff_not]
    exact hc

/-- Witness for C10 at the ASCII classification. -/
theorem C10_guess_lower_snake_case_witness :
    (∀ (name : List Char), ∀ c ∈ guess_lower_snake_case asciiCharSpec name,
       asciiCharSpec.is_uppercase c = false) ∧
    (∀ name : List Char,
       guess_lower_snake_case asciiCharSpec
           (guess_lower_snake_case asciiCharSpec name) =
         guess_lower_snake_case asciiCharSpec name) :=
  C10_guess_lower_snake_case asciiCharSpec asciiCharSpec_lower_not_upper
    (by decide)

/-! ## Range collapser (src/helpers/mod.rs lines 280-334) -/

/-- A tree-sitter `Point`: 0-indexed row and column. -/
structure TSPoint where
  row : Nat
  column : Nat
deriving DecidableEq, Repr

/-- A tree-sitter `Range`: byte bounds plus point bounds. -/
structure TSRange where
  start_byte : Nat
  end_byte : Nat
  start_point : TSPoint
  end_point : TSPoint
deriving DecidableEq, Repr

/-- The `RangeCollapser` iterator loop (src/helpers/mod.rs lines 309-334)
in the state where `current_range = Some cur`: an adjacent next range
(where `cur`'s end point equals its start point) extends `cur`'s end
point and end byte; otherwise `cur` is emitted and tracking restarts from
the next range; at exhaustion `cur` is emitted. -/
def collapseFrom (cur : TSRange) : List TSRange → List TSRange
  | [] => [cur]
  | r :: rs =>
    if cur.end_point = r.start_point then
      collapseFrom
        { cur with end_point := r.end_point, end_byte := r.end_byte } rs
    else
      cur :: collapseFrom r rs

/-- The whole `RangeCollapser` stream (initial state
`current_range = None`). -/
def rangeCollapse : List TSRange → List TSRange
  | [] => []
  | r :: rs => collapseFrom r rs

/-- Modelled from the spec: the maximal runs of pairwise-adjacent ranges
(adjacent meaning the prior range's end point equals the next range's
start point) of a sequence, in order. -/
def adjacentRuns : List TSRange → List (List TSRange)
  | [] => []
  | [r] => [[r]]
  | r :: s :: t =>
    match adjacentRuns (s :: t) with
    | [] => [[r]]
    | run :: runs =>
      if r.end_point = s.start_point then (r :: run) :: runs
      else [r] :: run :: runs

/-- Modelled from the spec: merging a run into a single range that starts
where the run's first range starts and ends where its last range ends. -/
def mergeRunFrom (r : TSRange) (rest : List TSRange) : TSRange :=
  rest.foldl
    (fun a b => { a with end_point := b.end_point, end_byte := b.end_byte }) r

/-- Modelled from the spec: the merged maximal runs. -/
def collapseSpec (l : List TSRange) : List TSRange :=
  (adjacentRuns l).filterMap fun run =>
    match run with
    | [] => none
    | r :: rs => some (mergeRunFrom r rs)

/-- The first run of `adjacentRuns (s :: t)` starts with `s`, and the run
decomposition after `s` depends only on `s`'s end point. -/
theorem adjacentRuns_cons (t : List TSRange) :
    ∀ x y : TSRange, x.end_point = y.end_point →
      ∃ X runs, adjacentRuns (x :: t) = (x :: X) :: runs ∧
        adjacentRuns (y :: t) = (y :: X) :: runs := by
  induction t with
  | nil => exact fun x y _ => ⟨[], [], rfl, rfl⟩
  | cons u t' ih =>
    intro x y hxy
    obtain ⟨X, runs, hu, -⟩ := ih u u rfl
    by_cases hadj : x.end_point = u.start_point
    · have hadj' : y.end_point = u.start_point := by rw [← hxy]; exact hadj
      refine ⟨u :: X, runs, ?_, ?_⟩
      · rw [adjacentRuns, hu]
        simp [hadj]
      · rw [adjacentRuns, hu]
        simp [hadj']
    · have hadj' : ¬ y.end_point = u.start_point := by rw [← hxy]; exact hadj
      refine ⟨[], (u :: X) :: runs, ?_, ?_⟩
      · rw [adjacentRuns, hu]
        simp [hadj]
      · rw [adjacentRuns, hu]
        simp [hadj']

/-- The collapser's emission from state `cur` is the spec's merged-run
stream of `cur` followed by the remaining input. -/
theorem collapseFrom_eq_spec (l : List TSRange) :
    ∀ cur, collapseFrom cur l = collapseSpec (cur :: l) := by
  induction l with
  | nil => intro cur; rfl
  | cons s t ih =>
    intro cur
    by_cases hadj : cur.end_point = s.start_point
    · rw [collapseFrom, if_pos hadj, ih]
      obtain ⟨X0, runs0, hx0, hy0⟩ := adjacentRuns_cons t
        (⟨cur.start_byte, s.end_byte, cur.start_point, s.end_point⟩ : TSRange)
        s rfl
      have hrtop : adjacentRuns (cur :: s :: t) = (cur :: s :: X0) :: runs0 := by
        rw [adjacentRuns, hy0]
        simp [hadj]
      simp only [collapseSpec, hx0, hrtop]
      rfl
    · rw [collapseFrom, if_neg hadj, ih]
      obtain ⟨X, runs, hs, -⟩ := adjacentRuns_cons t s s rfl
      have hrtop : adjacentRuns (cur :: s :: t) = [cur] :: (s :: X) :: runs := by
        rw [adjacentRuns, hs]
        simp [hadj]
      simp only [collapseSpec, hrtop, hs]
      rfl

/-- The first emitted range keeps the tracked range's start fields. -/
theorem collapseFrom_head (l : List TSRange) :
    ∀ cur, ∃ e eb tail,
      collapseFrom cur l =
        (⟨cur.start_byte, eb, cur.start_point, e⟩ : TSRange) :: tail := by
  induction l with
  | nil =>
    intro cur
    exact ⟨cur.end_point, cur.end_byte, [], rfl⟩
  | cons s t ih =>
    intro cur
    by_cases hadj : cur.end_point = s.start_point
    · rw [collapseFrom, if_pos hadj]
      obtain ⟨e, eb, tail, h⟩ :=
        ih (⟨cur.start_byte, s.end_byte, cur.start_point, s.end_point⟩ :
          TSRange)
      exact ⟨e, eb, tail, h⟩
    · rw [collapseFrom, if_neg hadj]
      exact ⟨cur.end_point, cur.end_byte, collapseFrom s t, rfl⟩

/-- No two consecutive emitted ranges are adjacent. -/
theorem collapseFrom_chain (l : List TSRange) :
    ∀ cur, List.Chain' (fun a b => a.end_point ≠ b.start_point)
      (collapseFrom cur l) := by
  induction l with
  | nil => intro cur; simp [collapseFrom]
  | cons s t ih =>
    intro cur
    by_cases hadj : cur.end_point = s.start_point
    · rw [collapseFrom, if_pos hadj]
      exact ih _
    · rw [collapseFrom, if_neg hadj]
      rw [List.chain'_cons']
      refine ⟨?_, ih s⟩
      intro y hy
      obtain ⟨e, eb, tail, hh⟩ := collapseFrom_head t s
      rw [hh] at hy
      cases hy
      exact hadj

/-- The collapser preserves the union of byte intervals, provided byte
bounds are consistent with point adjacency. -/
theorem collapseFrom_union (l : List TSRange) :
    ∀ (cur : TSRange) (b : Nat),
      (∀ r ∈ cur :: l, r.start_byte ≤ r.end_byte) →
      List.Chain' (fun a c => a.end_point = c.start_point →
        a.end_byte = c.start_byte) (cur :: l) →
      ((∃ out ∈ collapseFrom cur l,
          out.start_byte ≤ b ∧ b < out.end_byte) ↔
        ∃ r ∈ cur :: l, r.start_byte ≤ b ∧ b < r.end_byte) := by
  induction l with
  | nil =>
    intro cur b _ _
    simp [collapseFrom]
  | cons s t ih =>
    intro cur b hbounds hch
    have hcur : cur.start_byte ≤ cur.end_byte :=
      hbounds cur (List.mem_cons_self _ _)
    have hs : s.start_byte ≤ s.end_byte :=
      hbounds s (List.mem_cons_of_mem _ (List.mem_cons_self _ _))
    have hrel : cur.end_point = s.start_point →
        cur.end_byte = s.start_byte := (List.chain'_cons.mp hch).1
    have hch2 : List.Chain' (fun a c => a.end_point = c.start_point →
        a.end_byte = c.start_byte) (s :: t) := (List.chain'_cons.mp hch).2
    by_cases hadj : cur.end_point = s.start_point
    · rw [collapseFrom, if_pos hadj]
      have hbyte : cur.end_byte = s.start_byte := hrel hadj
      have hch' : List.Chain' (fun a c => a.end_point = c.start_point →
          a.end_byte = c.start_byte)
          ((⟨cur.start_byte, s.end_byte, cur.start_point, s.end_point⟩ :
            TSRange) :: t) := by
        rw [List.chain'_cons']
        rw [List.chain'_cons'] at hch2
        exact ⟨hch2.1, hch2.2⟩
      have hbounds' : ∀ r ∈ (⟨cur.start_byte, s.end_byte, cur.start_point,
          s.end_point⟩ : TSRange) :: t, r.start_byte ≤ r.end_byte := by
        intro r hr
        rcases List.mem_cons.mp hr with h1 | h2
        · subst h1
          show cur.start_byte ≤ s.end_byte
          omega
        · exact hbounds r (List.mem_cons_of_mem _ (List.mem_cons_of_mem _ h2))
      rw [ih _ b hbounds' hch']
      simp only [List.mem_cons]
      constructor
      · rintro ⟨r, hr | hr, hb1, hb2⟩
        · subst hr
          simp only at hb1 hb2
          by_cases hx : b < cur.end_byte
          · exact ⟨cur, Or.inl rfl, hb1, hx⟩
          · exact ⟨s, Or.inr (Or.inl rfl), by omega, hb2⟩
        · exact ⟨r, Or.inr (Or.inr hr), hb1, hb2⟩
      · rintro ⟨r, hr | hr | hr, hb1, hb2⟩
        · subst hr
          exact ⟨_, Or.inl rfl, by simpa using by omega, by simp; omega⟩
        · subst hr
          exact ⟨_, Or.inl rfl, by simp; omega, by simp; omega⟩
        · exact ⟨r, Or.inr hr, hb1, hb2⟩
    · rw [collapseFrom, if_neg hadj]
      have := ih s b (fun r hr => hbounds r (List.mem_cons_of_mem _ hr)) hch2
      simp only [List.mem_cons] at this ⊢
      constructor
      · rintro ⟨r, hr | hr, hb1, hb2⟩
        · subst hr
          exact ⟨r, Or.inl rfl, hb1, hb2⟩
        · obtain ⟨r', hr', hb'⟩ := this.mp ⟨r, hr, hb1, hb2⟩
          exact ⟨r', Or.inr hr', hb'⟩
      · rintro ⟨r, hr | hr, hb1, hb2⟩
        · subst hr
          exact ⟨r, Or.inl rfl, hb1, hb2⟩
        · obtain ⟨r', hr', hb'⟩ := this.mpr ⟨r, hr, hb1, hb2⟩
          exact ⟨r', Or.inr hr', hb'⟩

/-- The spec-side merge keeps the first range's start and takes the last
range's end. -/
theorem mergeRunFrom_fields (rest : List TSRange) :
    ∀ r : TSRange,
      (mergeRunFrom r rest).start_byte = r.start_byte ∧
      (mergeRunFrom r rest).start_point = r.start_point ∧
      ∃ last, (r :: rest).getLast? = some last ∧
        (mergeRunFrom r rest).end_byte = last.end_byte ∧
        (mergeRunFrom r rest).end_point = last.end_point := by
  induction rest with
  | nil =>
    intro r
    exact ⟨rfl, rfl, r, rfl, rfl, rfl⟩
  | cons s t ih =>
    intro r
    obtain ⟨h1, h2, last, hlast, h3, h4⟩ :=
      ih (⟨r.start_byte, s.end_byte, r.start_point, s.end_point⟩ : TSRange)
    refine ⟨h1, h2, ?_⟩
    cases t with
    | nil => exact ⟨s, rfl, rfl, rfl⟩
    | cons u t' =>
      refine ⟨last, ?_, h3, h4⟩
      rw [List.getLast?_cons_cons, List.getLast?_cons_cons]
      rw [List.getLast?_cons_cons] at hlast
      exact hlast

/-- C6: for a sorted input of ranges, the collapser emits exactly the
maximal adjacency-merged runs (equality with the spec-side
`collapseSpec`); a merged run keeps the first range's start and the last
range's end; consecutive outputs are never adjacent; and — whenever byte
bounds are consistent with point adjacency and each range is non-empty in
bytes — the union of the output byte intervals equals the union of the
input byte intervals. -/
theorem C6_range_collapser :
    (∀ l : List TSRange, rangeCollapse l = collapseSpec l) ∧
    (∀ l : List TSRange,
      List.Chain' (fun a b => a.end_point ≠ b.start_point)
        (rangeCollapse l)) ∧
    (∀ (r : TSRange) (rest : List TSRange),
      (mergeRunFrom r rest).start_byte = r.start_byte ∧
      (mergeRunFrom r rest).start_point = r.start_point ∧
      ∃ last, (r :: rest).getLast? = some last ∧
        (mergeRunFrom r rest).end_byte = last.end_byte ∧
        (mergeRunFrom r rest).end_point = last.end_point) ∧
    (∀ (l : List TSRange) (b : Nat),
      (∀ r ∈ l, r.start_byte ≤ r.end_byte) →
      List.Chain' (fun a c => a.end_point = c.start_point →
        a.end_byte = c.start_byte) l →
      ((∃ out ∈ rangeCollapse l,
          out.start_byte ≤ b ∧ b < out.end_byte) ↔
        ∃ r ∈ l, r.start_byte ≤ b ∧ b < r.end_byte)) := by
  refine ⟨?_, ?_, ?_, ?_⟩
  · intro l
    cases l with
    | nil => rfl
    | cons r rs => exact collapseFrom_eq_spec rs r
  · intro l
    cases l with
    | nil => simp [rangeCollapse]
    | cons r rs => exact collapseFrom_chain rs r
  · intro r rest
    exact mergeRunFrom_fields rest r
  · intro l b hb hch
    cases l with
    | nil => simp [rangeCollapse]
    | cons r rs => exact collapseFrom_union rs r b hb hch

/-- Witness for C6 at two byte-adjacent concrete ranges. -/
theorem C6_range_collapser_witness :
    (∃ out ∈ rangeCollapse
        [(⟨0, 2, ⟨0, 0⟩, ⟨0, 2⟩⟩ : TSRange), ⟨2, 3, ⟨0, 2⟩, ⟨0, 3⟩⟩],
        out.start_byte ≤ 2 ∧ 2 < out.end_byte) ↔
      ∃ r ∈ [(⟨0, 2, ⟨0, 0⟩, ⟨0, 2⟩⟩ : TSRange), ⟨2, 3, ⟨0, 2⟩, ⟨0, 3⟩⟩],
        r.start_byte ≤ 2 ∧ 2 < r.end_byte :=
  C6_range_collapser.2.2.2
    [(⟨0, 2, ⟨0, 0⟩, ⟨0, 2⟩⟩ : TSRange), ⟨2, 3, ⟨0, 2⟩, ⟨0, 3⟩⟩] 2
    (by decide)
    (by
      rw [List.chain'_cons]
      exact ⟨by decide, List.chain'_singleton _⟩)

/-! ## The has-ancestor custom predicate (src/helpers/mod.rs lines 134-172) -/

/-- The observable surface of a tree-sitter syntax tree node: stable
identity (`Node::id`), kind name (`Node::kind`), and children. -/
inductive CTree where
  | node (id : Nat) (kind : String) (children : List CTree)

/-- `Node::id()`: the stable node identity. -/
def CTree.nodeId : CTree → Nat
  | .node i _ _ => i

/-- `Node::kind()`: the node's kind name. -/
def CTree.kindName : CTree → String
  | .node _ k _ => k

/-- The node's children. -/
def CTree.children : CTree → List CTree
  | .node _ _ cs => cs

mutual

/-- The node ids of a subtree in preorder. -/
def CTree.ids : CTree → List Nat
  | .node i _ cs => i :: idsList cs

/-- The node ids of a forest, left to right. -/
def idsList : List CTree → List Nat
  | [] => []
  | c :: cs => c.ids ++ idsList cs

end

/-- Modelled from the spec: the external `Node::child_with_descendant`
accessor — the (first) child of the node whose subtree contains the node
with the given id. -/
def childWithDescendant (t : CTree) (target : Nat) : Option CTree :=
  t.children.find? fun c => target ∈ c.ids

/-- The `has-ancestor?` descent of `QueryHelper::predicate_matches`
(src/helpers/mod.rs lines 144-172): starting at the root, stop with
`false` on reaching the target, stop with `true` on meeting the wanted
kind, otherwise descend through the child containing the target (a `none`
from the accessor ends the loop with `found = false`). -/
def hasAncestor (t : CTree) (targetId : Nat) (kind : String) : Bool :=
  if t.nodeId = targetId then false
  else if t.kindName = kind then true
  else
    match h : childWithDescendant t targetId with
    | some c => hasAncestor c targetId kind
    | none => false
termination_by sizeOf t
decreasing_by
  rw [childWithDescendant] at h
  have hmem : c ∈ t.children := List.mem_of_find?_eq_some h
  have h1 : sizeOf c < sizeOf t.children := List.sizeOf_lt_of_mem hmem
  have h2 : sizeOf t.children < sizeOf t := by
    cases t with
    | node i k cs => simp [CTree.children]
  omega

/-- The path from a root node down to a descendant node, as a list of the
nodes visited (both endpoints included). -/
inductive PathTo : CTree → CTree → List CTree → Prop
  | refl (t : CTree) : PathTo t t [t]
  | step {t c target : CTree} {p : List CTree} :
      c ∈ t.children → PathTo c target p → PathTo t target (t :: p)

/-- A path is never the empty list. -/
theorem pathTo_ne_nil {root target : CTree} {p : List CTree}
    (h : PathTo root target p) : p ≠ [] := by
  cases h <;> simp

/-- A forest member's ids form a sublist of the forest's ids. -/
theorem idsList_sublist {c : CTree} {cs : List CTree} (h : c ∈ cs) :
    c.ids.Sublist (idsList cs) := by
  induction cs with
  | nil => cases h
  | cons a t ih =>
    rw [idsList]
    rcases List.mem_cons.mp h with h1 | h2
    · subst h1
      exact List.sublist_append_left _ _
    · exact (ih h2).trans (List.sublist_append_right _ _)

/-- The id of a path's endpoint occurs among the root's subtree ids. -/
theorem pathTo_target_mem_ids {root target : CTree} {p : List CTree}
    (h : PathTo root target p) : target.nodeId ∈ root.ids := by
  induction h with
  | refl t =>
    cases t with
    | node i k cs =>
      rw [CTree.ids]
      exact List.mem_cons_self _ _
  | @step t c target' p' hc hp ih =>
    cases t with
    | node i k cs =>
      rw [CTree.ids]
      have hsub := idsList_sublist hc
      exact List.mem_cons_of_mem _ (hsub.subset ih)

/-- A child's subtree ids stay duplicate-free. -/
theorem nodup_ids_child {t c : CTree} (hc : c ∈ t.children)
    (hnd : t.ids.Nodup) : c.ids.Nodup := by
  cases t with
  | node i k cs =>
    rw [CTree.ids] at hnd
    exact ((idsList_sublist hc).nodup
      (List.Nodup.of_cons hnd))

/-- With duplicate-free ids, an id determines the sibling subtree holding
it. -/
theorem sibling_ids_unique {cs : List CTree} (hnd : (idsList cs).Nodup)
    {c c' : CTree} (hc : c ∈ cs) (hc' : c' ∈ cs) {x : Nat}
    (hx : x ∈ c.ids) (hx' : x ∈ c'.ids) : c' = c := by
  induction cs with
  | nil => cases hc
  | cons a t ih =>
    rw [idsList] at hnd
    have hdisj : List.Disjoint a.ids (idsList t) :=
      List.disjoint_of_nodup_append hnd
    have hnd2 : (idsList t).Nodup := hnd.of_append_right
    rcases List.mem_cons.mp hc with h1 | h1 <;>
      rcases List.mem_cons.mp hc' with h2 | h2
    · rw [h1, h2]
    · exfalso
      subst h1
      exact hdisj hx ((idsList_sublist h2).subset hx')
    · exfalso
      subst h2
      exact hdisj hx' ((idsList_sublist h1).subset hx)
    · exact ih hnd2 h1 h2

/-- A `find?` whose satisfier is unique in the list returns it. -/
theorem find?_eq_some_of_unique {α : Type} {p : α → Bool} {cs : List α}
    {c : α} (hc : c ∈ cs) (hpc : p c = true)
    (huniq : ∀ c' ∈ cs, p c' = true → c' = c) :
    cs.find? p = some c := by
  induction cs with
  | nil => cases hc
  | cons a t ih =>
    by_cases hpa : p a = true
    · rw [List.find?_cons_of_pos _ hpa]
      rw [huniq a (List.mem_cons_self _ _) hpa]
    · rw [List.find?_cons_of_neg _ (by simpa using hpa)]
      rcases List.mem_cons.mp hc with h1 | h1
      · subst h1
        exact absurd hpc hpa
      · exact ih h1 fun c' hc' hp' =>
          huniq c' (List.mem_cons_of_mem _ hc') hp'

/-- C3: for a capture bound to a single node reachable from the root, the
`#has-ancestor? @X "kind"` descent returns true iff some node on the path
from the root down to — but excluding — the captured node has the given
kind; if the descent reaches the node first, it returns false. -/
theorem C3_has_ancestor_path {root target : CTree} {p : List CTree}
    (hpath : PathTo root target p) :
    ∀ kind : String, root.ids.Nodup →
      (hasAncestor root target.nodeId kind = true ↔
        ∃ n ∈ p.dropLast, n.kindName = kind) := by
  induction hpath with
  | refl t =>
    intro kind hnd
    rw [hasAncestor, if_pos rfl]
    simp
  | @step t c target' p' hc hp ih =>
    intro kind hnd
    have hndc : c.ids.Nodup := nodup_ids_child hc hnd
    have htmem : target'.nodeId ∈ c.ids := pathTo_target_mem_ids hp
    cases t with
    | node i k cs =>
      have hnd' : (i :: idsList cs).Nodup := by
        rw [CTree.ids] at hnd
        exact hnd
      have hne : (CTree.node i k cs).nodeId ≠ target'.nodeId := by
        intro heq
        have hmem2 : target'.nodeId ∈ idsList cs :=
          (idsList_sublist hc).subset htmem
        rw [← heq] at hmem2
        exact (List.nodup_cons.mp hnd').1 hmem2
      rw [hasAncestor, if_neg hne]
      by_cases hk : (CTree.node i k cs).kindName = kind
      · rw [if_pos hk]
        cases p' with
        | nil => exact absurd rfl (pathTo_ne_nil hp)
        | cons b t' =>
          constructor
          · intro _
            exact ⟨CTree.node i k cs,
              by
                rw [List.dropLast_cons₂]
                exact List.mem_cons_self _ _,
              hk⟩
          · intro _
            rfl
      · rw [if_neg hk]
        have hcwd : childWithDescendant (CTree.node i k cs) target'.nodeId =
            some c := by
          rw [childWithDescendant]
          apply find?_eq_some_of_unique hc (by simpa using htmem)
          intro c' hc' hp'
          exact sibling_ids_unique (List.Nodup.of_cons hnd') hc hc'
            htmem (by simpa using hp')
        split
        case _ c0 hc0 =>
          have hc0c : c0 = c := Option.some.inj (hc0.symm.trans hcwd)
          subst hc0c
          rw [ih kind hndc]
          cases p' with
          | nil => exact absurd rfl (pathTo_ne_nil hp)
          | cons b t' =>
            rw [List.dropLast_cons₂]
            constructor
            · rintro ⟨n, hn, hkk⟩
              exact ⟨n, List.mem_cons_of_mem _ hn, hkk⟩
            · rintro ⟨n, hn, hkk⟩
              rcases List.mem_cons.mp hn with h1 | h1
              · subst h1
                exact absurd hkk hk
              · exact ⟨n, h1, hkk⟩
        case _ hc0 =>
          rw [hc0] at hcwd
          cases hcwd

/-- Witness for C3 on a concrete three-node path. -/
theorem C3_has_ancestor_path_witness :
    hasAncestor
        (CTree.node 0 "translation_unit"
          [CTree.node 1 "function_definition" [CTree.node 2 "identifier" []]])
        (CTree.node 2 "identifier" []).nodeId "function_definition" = true ↔
      ∃ n ∈ ([CTree.node 0 "translation_unit"
            [CTree.node 1 "function_definition"
              [CTree.node 2 "identifier" []]],
          CTree.node 1 "function_definition" [CTree.node 2 "identifier" []],
          CTree.node 2 "identifier" []] : List CTree).dropLast,
        n.kindName = "function_definition" :=
  C3_has_ancestor_path
    (PathTo.step (List.mem_singleton_self _)
      (PathTo.step (List.mem_singleton_self _) (PathTo.refl _)))
    "function_definition"
    (by
      have h1 : (CTree.node 0 "translation_unit"
          [CTree.node 1 "function_definition"
            [CTree.node 2 "identifier" []]]).ids = [0, 1, 2] := by
        simp [CTree.ids, idsList]
      rw [h1]
      decide)
